import Mathlib

/-!
Shallow embedding of the retrieval core of the Django_React RAG blog system.

The chunker comes from rag_blog/document_processor.py
(DocumentProcessor.chunk_text, DocumentProcessor.process_documents,
DocumentProcessor.create_embeddings), the vector store and the retrieval
orchestration from rag_blog/vector_store.py (VectorStore and
RetrievalSystem).  Text is modelled as List Char (Python strings are indexed
by character), machine floats by rationals, and the external FAISS
IndexFlatL2 by exact top-k selection over squared L2 distances with the -1
index padding that faiss emits when fewer than k vectors are stored.
Fallible Python code (raise) is modelled with Except String carrying the
exception message.
-/

/- ------------------------------------------------------------------ -/
/- Chunker: DocumentProcessor.chunk_text (document_processor.py 38-70) -/
/- ------------------------------------------------------------------ -/

/-- Helper for Python str.rfind restricted to a single character: walks the
list keeping the index of the last occurrence seen so far (so the result is
the highest index at which c occurs, or the initial accumulator -1). -/
def rfindAux (c : Char) : List Char → Nat → Int → Int
  | [], _, acc => acc
  | x :: xs, i, acc => rfindAux c xs (i + 1) (if x = c then (i : Int) else acc)

/-- Python chunk.rfind(c): highest index of c in l, -1 when c is absent. -/
def rfindChar (l : List Char) (c : Char) : Int :=
  rfindAux c l 0 (-1)

/-- Python str.strip(): drop leading and trailing whitespace characters. -/
def stripChars (l : List Char) : List Char :=
  ((l.dropWhile Char.isWhitespace).reverse.dropWhile Char.isWhitespace).reverse

/-- The window chunk = text[start : start + chunk_size] (line 55). -/
def windowAt (text : List Char) (chunk_size start : Nat) : List Char :=
  (text.drop start).take chunk_size

/-- break_point = max(chunk.rfind of period, chunk.rfind of newline)
(lines 59-61).  Note this index is relative to the window, not to text. -/
def breakPoint (text : List Char) (chunk_size start : Nat) : Int :=
  max (rfindChar (windowAt text chunk_size start) '.')
      (rfindChar (windowAt text chunk_size start) '\n')

/-- End position of the chunk produced at start, after the
sentence-boundary adjustment of lines 58-65: when the window stops short of
the end of the text and break_point > start + chunk_size // 2 (the source
compares the window-relative break_point against this absolute position),
the end is moved to start + break_point + 1. -/
def chunkEnd (text : List Char) (chunk_size start : Nat) : Nat :=
  if start + chunk_size < text.length then
    if ((start + chunk_size / 2 : Nat) : Int) < breakPoint text chunk_size start then
      start + (breakPoint text chunk_size start).toNat + 1
    else start + chunk_size
  else start + chunk_size

/-- The chunk produced at start before stripping: text[start : chunkEnd]. -/
def chunkSlice (text : List Char) (chunk_size start : Nat) : List Char :=
  (text.drop start).take (chunkEnd text chunk_size start - start)

/-- start = max(start + 1, end - overlap) (line 68). -/
def nextStart (text : List Char) (chunk_size overlap start : Nat) : Nat :=
  max (start + 1) (chunkEnd text chunk_size start - overlap)

/-- The while loop of chunk_text (lines 53-68) with an explicit iteration
budget; chunkLoop_fuel_indep below shows that any budget of at least
text.length - start iterations yields the loop's limit, i.e. the Python
loop terminates. -/
def chunkLoop (fuel : Nat) (text : List Char) (chunk_size overlap start : Nat) :
    List (List Char) :=
  match fuel with
  | 0 => []
  | fuel + 1 =>
    if start < text.length then
      stripChars (chunkSlice text chunk_size start) ::
        chunkLoop fuel text chunk_size overlap (nextStart text chunk_size overlap start)
    else []

/-- DocumentProcessor.chunk_text: run the loop from start = 0 and keep the
non-empty stripped chunks (line 70). -/
def chunk_text (text : List Char) (chunk_size overlap : Nat) : List (List Char) :=
  (chunkLoop text.length text chunk_size overlap 0).filter (fun c => !c.isEmpty)

/- ------------------------- chunker lemmas ------------------------- -/

theorem rfindAux_le (c : Char) :
    ∀ (l : List Char) (i : Nat) (acc : Int),
      rfindAux c l i acc ≤ max acc ((i : Int) + l.length - 1)
  | [], i, acc => by simp [rfindAux]
  | x :: xs, i, acc => by
    have ih := rfindAux_le c xs (i + 1) (if x = c then (i : Int) else acc)
    simp only [rfindAux, List.length_cons]
    refine le_trans ih (max_le ?left ?right)
    case left =>
      split
      case isTrue =>
        refine le_max_of_le_right ?hl
        push_cast
        omega
      case isFalse => exact le_max_left _ _
    case right =>
      refine le_max_of_le_right ?hr
      push_cast
      omega

theorem rfindChar_lt (l : List Char) (c : Char) :
    rfindChar l c < (l.length : Int) := by
  have h := rfindAux_le c l 0 (-1)
  have : max (-1 : Int) ((0 : Int) + l.length - 1) < l.length := by
    apply max_lt
    · omega
    · omega
  exact lt_of_le_of_lt h this

theorem breakPoint_lt (text : List Char) (chunk_size start : Nat) :
    breakPoint text chunk_size start < ((windowAt text chunk_size start).length : Int) :=
  max_lt (rfindChar_lt _ _) (rfindChar_lt _ _)

theorem windowAt_length (text : List Char) (chunk_size start : Nat) :
    (windowAt text chunk_size start).length = min chunk_size (text.length - start) := by
  simp [windowAt]

theorem chunkEnd_sub_le (text : List Char) (chunk_size start : Nat) :
    chunkEnd text chunk_size start - start ≤ chunk_size := by
  unfold chunkEnd
  split
  case isTrue hin =>
    split
    case isTrue hbp =>
      have hlt := breakPoint_lt text chunk_size start
      rw [windowAt_length] at hlt
      have hmin : min chunk_size (text.length - start) = chunk_size := by omega
      rw [hmin] at hlt
      omega
    case isFalse => omega
  case isFalse => omega

theorem stripChars_length_le (l : List Char) : (stripChars l).length ≤ l.length := by
  unfold stripChars
  rw [List.length_reverse]
  refine le_trans (List.dropWhile_sublist _).length_le ?h2
  rw [List.length_reverse]
  exact (List.dropWhile_sublist _).length_le

theorem chunkSlice_length_le (text : List Char) (chunk_size start : Nat) :
    (chunkSlice text chunk_size start).length ≤ chunk_size := by
  unfold chunkSlice
  rw [List.length_take]
  exact le_trans (min_le_left _ _) (chunkEnd_sub_le text chunk_size start)

theorem nextStart_gt (text : List Char) (chunk_size overlap start : Nat) :
    start < nextStart text chunk_size overlap start :=
  lt_of_lt_of_le (Nat.lt_succ_self start) (le_max_left _ _)

/-- The loop result does not depend on the iteration budget once the budget
covers the remaining text: the loop makes forward progress of at least one
character per iteration, so it terminates. -/
theorem chunkLoop_fuel_indep (text : List Char) (chunk_size overlap : Nat) :
    ∀ (fuel1 fuel2 start : Nat),
      text.length - start ≤ fuel1 → text.length - start ≤ fuel2 →
      chunkLoop fuel1 text chunk_size overlap start =
        chunkLoop fuel2 text chunk_size overlap start
  | 0, fuel2, start, h1, _ => by
    have hs : text.length ≤ start := by omega
    cases fuel2 with
    | zero => rfl
    | succ g =>
      simp only [chunkLoop]
      rw [if_neg (by omega)]
  | fuel + 1, fuel2, start, h1, h2 => by
    cases fuel2 with
    | zero =>
      have hs : text.length ≤ start := by omega
      simp only [chunkLoop]
      rw [if_neg (by omega)]
    | succ g =>
      simp only [chunkLoop]
      by_cases hlt : start < text.length
      case pos =>
        rw [if_pos hlt, if_pos hlt]
        have hns := nextStart_gt text chunk_size overlap start
        have := chunkLoop_fuel_indep text chunk_size overlap fuel g
          (nextStart text chunk_size overlap start) (by omega) (by omega)
        rw [this]
      case neg =>
        rw [if_neg hlt, if_neg hlt]

theorem chunkLoop_mem (text : List Char) (chunk_size overlap : Nat) :
    ∀ (fuel start : Nat) (c : List Char),
      c ∈ chunkLoop fuel text chunk_size overlap start →
      ∃ s0, c = stripChars (chunkSlice text chunk_size s0) := by
  intro fuel
  induction fuel with
  | zero =>
    intro start c h
    simp [chunkLoop] at h
  | succ fuel ih =>
    intro start c h
    simp only [chunkLoop] at h
    by_cases hlt : start < text.length
    case pos =>
      rw [if_pos hlt] at h
      rcases List.mem_cons.mp h with h | h
      · exact ⟨start, h⟩
      · exact ih _ c h
    case neg =>
      rw [if_neg hlt] at h
      simp at h

/- ------------------------------------------------------------------ -/
/- Data model: documents in, processed chunk records out              -/
/- ------------------------------------------------------------------ -/

/-- An input document handed to process_documents / build_index: a dict
with keys id (optional, the code substitutes a running count), title,
content and metadata. -/
structure Document where
  id : Option String
  title : String
  content : String
  metadata : List (String × String)
deriving DecidableEq

/-- A processed chunk record as produced by
DocumentProcessor.process_documents (document_processor.py 92-101). -/
structure Doc where
  id : String
  title : String
  chunk : String
  chunk_index : Nat
  total_chunks : Nat
  metadata : List (String × String)
deriving DecidableEq

/-- Python enumerate starting at i. -/
def enumerateFrom {α : Type} (i : Nat) : List α → List (Nat × α)
  | [] => []
  | a :: as => (i, a) :: enumerateFrom (i + 1) as

/-- The body of the outer loop of process_documents for one document:
chunk its content with the default chunk_size=500, overlap=50 and append
one record per chunk; an absent id defaults to the number of records
accumulated so far (line 94). -/
def processDocChunks (acc : List Doc) (doc : Document) : List Doc :=
  (enumerateFrom 0 (chunk_text doc.content.toList 500 50)).foldl
    (fun a p =>
      a ++ [{ id := (doc.id.getD (toString a.length)) ++ ("_") ++ toString p.1,
              title := doc.title,
              chunk := String.mk p.2,
              chunk_index := p.1,
              total_chunks := (chunk_text doc.content.toList 500 50).length,
              metadata := doc.metadata }]) acc

/-- DocumentProcessor.process_documents (document_processor.py 72-104). -/
def process_documents (docs : List Document) : List Doc :=
  docs.foldl processDocChunks []

/- ------------------------------------------------------------------ -/
/- VectorStore (vector_store.py 16-129)                               -/
/- ------------------------------------------------------------------ -/

/-- FLT_MAX, the distance faiss reports for padded no-match slots. -/
def padDistance : Rat := 340282346638528859811704183484516925440

/-- Squared L2 distance between a query and a stored vector (the metric of
faiss.IndexFlatL2). -/
def l2sq (q v : List Rat) : Rat :=
  ((q.zip v).map (fun p => (p.1 - p.2) * (p.1 - p.2))).sum

/-- The stored vectors scored against the query and paired with their
faiss ids i, i+1, ... -/
def scoredAux (q : List Rat) : List (List Rat) → Nat → List (Rat × Int)
  | [], _ => []
  | v :: vs, i => (l2sq q v, (i : Int)) :: scoredAux q vs (i + 1)

/-- Comparison used to rank scored vectors: ascending distance. -/
def pairLe (a b : Rat × Int) : Prop := a.1 ≤ b.1

instance : DecidableRel pairLe := fun a b => inferInstanceAs (Decidable (a.1 ≤ b.1))

instance : IsTotal (Rat × Int) pairLe := ⟨fun a b => le_total a.1 b.1⟩

instance : IsTrans (Rat × Int) pairLe := ⟨fun _ _ _ h1 h2 => le_trans h1 h2⟩

/-- Model of faiss.IndexFlatL2.search for one query: the k (distance, id)
pairs of smallest squared L2 distance in ascending order; when fewer than k
vectors are stored the remaining slots are padded with id -1 and distance
FLT_MAX, exactly as faiss reports missing neighbours. -/
def faissTopK (vs : List (List Rat)) (q : List Rat) (k : Nat) : List (Rat × Int) :=
  ((List.insertionSort pairLe (scoredAux q vs 0)).take k) ++
    List.replicate (k - ((List.insertionSort pairLe (scoredAux q vs 0)).take k).length)
      (padDistance, -1)

/-- A retrieval result: the copied chunk record with the similarity_score
and rank keys that search attaches (vector_store.py 80-82). -/
structure SearchResult where
  doc : Doc
  similarity_score : Rat
  rank : Nat
deriving DecidableEq

/-- VectorStore state: embedding_dim, the optional faiss index (modelled by
the list of vectors added to it), the parallel chunk records, the stored
embeddings and the is_trained flag (vector_store.py 19-30). -/
structure VectorStore where
  embedding_dim : Nat
  index : Option (List (List Rat))
  documents : List Doc
  embeddings : Option (List (List Rat))
  is_trained : Bool
deriving DecidableEq

/-- VectorStore.__init__ (vector_store.py 19-30). -/
def VectorStore.init (embedding_dim : Nat) : VectorStore :=
  { embedding_dim := embedding_dim, index := none, documents := [],
    embeddings := none, is_trained := false }

/-- VectorStore.create_index (vector_store.py 32-53): store the vectors in
a fresh flat L2 index, keep documents and embeddings, set is_trained. -/
def VectorStore.create_index (s : VectorStore) (embeddings : List (List Rat))
    (documents : List Doc) : VectorStore :=
  { s with index := some embeddings, documents := documents,
           embeddings := some embeddings, is_trained := true }

/-- The result-assembly loop of VectorStore.search (vector_store.py 77-83):
entries are (i, (distance, idx)) from enumerate(zip(distances[0],
indices[0])); idx = -1 slots are skipped, others are looked up in
self.documents (an out-of-range idx would raise IndexError), copied, and
given similarity_score = 1 / (1 + distance) and rank = i + 1. -/
def buildResults (docs : List Doc) : List (Nat × (Rat × Int)) → Except String (List (Rat × SearchResult))
  | [] => Except.ok []
  | (i, (dist, idx)) :: rest =>
    if idx = -1 then buildResults docs rest
    else
      match docs[idx.toNat]? with
      | none => Except.error ("list index out of range")
      | some doc =>
        match buildResults docs rest with
        | Except.ok rs =>
          Except.ok ((dist, { doc := doc, similarity_score := 1 / (1 + dist),
                              rank := i + 1 }) :: rs)
        | Except.error e => Except.error e

/-- The same assembly as a total function, used to state what buildResults
returns when every lookup succeeds. -/
def resultsOf (docs : List Doc) (entries : List (Nat × (Rat × Int))) :
    List (Rat × SearchResult) :=
  entries.filterMap (fun e =>
    if e.2.2 = -1 then none
    else (docs[e.2.2.toNat]?).map
      (fun doc => (e.2.1, { doc := doc, similarity_score := 1 / (1 + e.2.1),
                            rank := e.1 + 1 })))

/-- VectorStore.search (vector_store.py 55-85), keeping each result paired
with the distance it was derived from. -/
def VectorStore.searchPairs (s : VectorStore) (q : List Rat) (k : Nat) :
    Except String (List (Rat × SearchResult)) :=
  if s.is_trained = false then
    Except.error ("Index not trained. Create index first.")
  else
    match s.index with
    | none => Except.error ("NoneType object has no attribute search")
    | some vs => buildResults s.documents (enumerateFrom 0 (faissTopK vs q k))

/-- VectorStore.search: the list of result records returned to the caller. -/
def VectorStore.search (s : VectorStore) (q : List Rat) (k : Nat) :
    Except String (List SearchResult) :=
  (s.searchPairs q k).map (List.map Prod.snd)

/-- State-passing form of search: the method only reads is_trained, index
and documents and assigns no attribute of self, so the state handed back to
the caller is the state it received. -/
def VectorStore.searchS (s : VectorStore) (q : List Rat) (k : Nat) :
    VectorStore × Except String (List SearchResult) :=
  (s, s.search q k)

/-- The pair of artifacts written by save_index (vector_store.py 87-107):
the faiss index file plus the pickled metadata bundle. -/
structure SavedIndex where
  indexData : List (List Rat)
  documents : List Doc
  embeddings : Option (List (List Rat))
  embedding_dim : Nat
  is_trained : Bool
deriving DecidableEq

/-- VectorStore.save_index (vector_store.py 87-107). -/
def VectorStore.save_index (s : VectorStore) : Except String SavedIndex :=
  if s.is_trained = false then
    Except.error ("No index to save. Create index first.")
  else
    match s.index with
    | none => Except.error ("NoneType object cannot be written")
    | some vs =>
      Except.ok { indexData := vs, documents := s.documents,
                  embeddings := s.embeddings, embedding_dim := s.embedding_dim,
                  is_trained := s.is_trained }

/-- VectorStore.load_index (vector_store.py 109-129) with both artifacts
present: restore index, documents, embeddings, embedding_dim, is_trained. -/
def VectorStore.load_index (s : VectorStore) (saved : SavedIndex) : VectorStore :=
  { s with index := some saved.indexData, documents := saved.documents,
           embeddings := saved.embeddings, embedding_dim := saved.embedding_dim,
           is_trained := saved.is_trained }

/- ------------------------------------------------------------------ -/
/- RetrievalSystem (vector_store.py 132-225)                          -/
/- ------------------------------------------------------------------ -/

/-- Python dict.get(key) on the metadata mapping. -/
def dictGet (m : List (String × String)) (key : String) : Option String :=
  (m.find? (fun p => p.1 == key)).map Prod.snd

/-- RetrievalSystem state (vector_store.py 135-144); the sentence
transformer model itself is external, so embedding is passed as a function
argument where it is used. -/
structure RetrievalSystem where
  model_name : String
  vector_store : VectorStore

/-- RetrievalSystem.build_index (vector_store.py 152-171): process the
documents, embed every chunk in one batch (create_embeddings raises
ValueError when there are no processed chunks, document_processor.py
116-122), then create the vector index. -/
def RetrievalSystem.build_index (embed : String → List Rat)
    (sys : RetrievalSystem) (documents : List Document) :
    Except String RetrievalSystem :=
  if (process_documents documents).isEmpty then
    Except.error ("No documents to embed. Process documents first.")
  else
    Except.ok { sys with vector_store :=
      (sys.vector_store.create_index
        ((process_documents documents).map (fun d => embed d.chunk))
        (process_documents documents)) }

/-- RetrievalSystem.retrieve (vector_store.py 173-193): embed the query
and search the vector store. -/
def RetrievalSystem.retrieve (embed : String → List Rat)
    (sys : RetrievalSystem) (query : String) (k : Nat) :
    Except String (List SearchResult) :=
  sys.vector_store.search (embed query) k

/-- One context block of get_context_for_generation (vector_store.py
218-223), built in the same incremental order as the Python string
concatenation; absent category falls back to the literal Unknown. -/
def formatResult (r : SearchResult) : String :=
  ("Title: ") ++ r.doc.title ++ ("\n") ++
    ("Content: ") ++ r.doc.chunk ++ ("\n") ++
    ("Category: ") ++ ((dictGet r.doc.metadata ("category")).getD ("Unknown")) ++ ("\n") ++
    ("---")

/-- RetrievalSystem.get_context_for_generation (vector_store.py 204-225):
retrieve, render each result as a block, join the blocks with a blank
line. -/
def RetrievalSystem.get_context_for_generation (embed : String → List Rat)
    (sys : RetrievalSystem) (query : String) (k : Nat) : Except String String :=
  match sys.retrieve embed query k with
  | Except.error e => Except.error e
  | Except.ok results =>
    Except.ok (String.intercalate ("\n\n") (results.map formatResult))

/- --------------------- vector store lemmas ------------------------ -/

theorem scoredAux_length (q : List Rat) :
    ∀ (vs : List (List Rat)) (i : Nat), (scoredAux q vs i).length = vs.length
  | [], _ => rfl
  | _ :: vs, i => by
    simp only [scoredAux, List.length_cons]
    rw [scoredAux_length q vs (i + 1)]

theorem l2sq_nonneg (q v : List Rat) : 0 ≤ l2sq q v := by
  apply List.sum_nonneg
  intro x hx
  rcases List.mem_map.mp hx with ⟨p, _, hp⟩
  rw [← hp]
  exact mul_self_nonneg _

theorem scoredAux_mem (q : List Rat) :
    ∀ (vs : List (List Rat)) (i : Nat) (p : Rat × Int),
      p ∈ scoredAux q vs i → 0 ≤ p.1 ∧ (i : Int) ≤ p.2 ∧ p.2 < (i : Int) + vs.length
  | [], _, p, h => by simp [scoredAux] at h
  | v :: vs, i, p, h => by
    simp only [scoredAux] at h
    rcases List.mem_cons.mp h with h | h
    · subst h
      refine ⟨l2sq_nonneg q v, le_refl _, ?hlt⟩
      simp only [List.length_cons]
      push_cast
      omega
    · rcases scoredAux_mem q vs (i + 1) p h with ⟨h1, h2, h3⟩
      refine ⟨h1, ?ha, ?hb⟩
      · push_cast at h2
        omega
      · simp only [List.length_cons]
        push_cast at h3 ⊢
        omega

/-- The real (non padded) part of a faiss search answer. -/
def topK (vs : List (List Rat)) (q : List Rat) (k : Nat) : List (Rat × Int) :=
  (List.insertionSort pairLe (scoredAux q vs 0)).take k

theorem faissTopK_eq (vs : List (List Rat)) (q : List Rat) (k : Nat) :
    faissTopK vs q k =
      topK vs q k ++ List.replicate (k - (topK vs q k).length) (padDistance, -1) := rfl

theorem topK_length (vs : List (List Rat)) (q : List Rat) (k : Nat) :
    (topK vs q k).length = min k vs.length := by
  rw [topK, List.length_take, (List.perm_insertionSort pairLe _).length_eq,
    scoredAux_length]

theorem topK_mem (vs : List (List Rat)) (q : List Rat) (k : Nat) (p : Rat × Int)
    (h : p ∈ topK vs q k) : 0 ≤ p.1 ∧ 0 ≤ p.2 ∧ p.2 < (vs.length : Int) := by
  have hmem : p ∈ scoredAux q vs 0 :=
    ((List.perm_insertionSort pairLe _).mem_iff).mp (List.mem_of_mem_take h)
  rcases scoredAux_mem q vs 0 p hmem with ⟨h1, h2, h3⟩
  refine ⟨h1, by omega, by omega⟩

theorem topK_sorted (vs : List (List Rat)) (q : List Rat) (k : Nat) :
    List.Pairwise pairLe (topK vs q k) :=
  (List.sorted_insertionSort pairLe _).sublist (List.take_sublist _ _)

theorem enumerateFrom_append {α : Type} :
    ∀ (l1 l2 : List α) (i : Nat),
      enumerateFrom i (l1 ++ l2) =
        enumerateFrom i l1 ++ enumerateFrom (i + l1.length) l2
  | [], l2, i => by simp [enumerateFrom]
  | a :: as, l2, i => by
    have ih := enumerateFrom_append as l2 (i + 1)
    show (i, a) :: enumerateFrom (i + 1) (as ++ l2) =
      (i, a) :: (enumerateFrom (i + 1) as ++ enumerateFrom (i + (a :: as).length) l2)
    rw [ih]
    have h1 : i + 1 + as.length = i + (a :: as).length := by
      simp only [List.length_cons]
      omega
    rw [h1]

theorem enumerateFrom_mem {α : Type} :
    ∀ (l : List α) (i : Nat) (e : Nat × α), e ∈ enumerateFrom i l → e.2 ∈ l
  | [], _, e, h => by simp [enumerateFrom] at h
  | a :: as, i, e, h => by
    simp only [enumerateFrom] at h
    rcases List.mem_cons.mp h with h | h
    · subst h
      exact List.mem_cons_self _ _
    · exact List.mem_cons_of_mem _ (enumerateFrom_mem as (i + 1) e h)

theorem enumerateFrom_mem_of_mem {α : Type} :
    ∀ (l : List α) (i : Nat) (a : α), a ∈ l → ∃ j, (j, a) ∈ enumerateFrom i l
  | [], _, a, h => by simp at h
  | b :: bs, i, a, h => by
    rcases List.mem_cons.mp h with h | h
    · subst h
      exact ⟨i, List.mem_cons_self _ _⟩
    · rcases enumerateFrom_mem_of_mem bs (i + 1) a h with ⟨j, hj⟩
      exact ⟨j, List.mem_cons_of_mem _ hj⟩

theorem buildResults_eq_ok (docs : List Doc) :
    ∀ (entries : List (Nat × (Rat × Int))) (l : List (Rat × SearchResult)),
      buildResults docs entries = Except.ok l → l = resultsOf docs entries
  | [], l, h => by
    simp only [buildResults, Except.ok.injEq] at h
    simp [resultsOf, ← h]
  | (i, (dist, idx)) :: rest, l, h => by
    simp only [buildResults] at h
    by_cases hidx : idx = -1
    case pos =>
      rw [if_pos hidx] at h
      have hr := buildResults_eq_ok docs rest l h
      simp only [resultsOf, List.filterMap_cons] at hr ⊢
      rw [if_pos hidx]
      exact hr
    case neg =>
      rw [if_neg hidx] at h
      cases hget : docs[idx.toNat]? with
      | none => rw [hget] at h; exact absurd h (by simp)
      | some doc =>
        rw [hget] at h
        cases hrest : buildResults docs rest with
        | error e => rw [hrest] at h; exact absurd h (by simp)
        | ok rs =>
          rw [hrest] at h
          have ih := buildResults_eq_ok docs rest rs hrest
          rw [← Except.ok.inj h]
          simp only [resultsOf, List.filterMap_cons] at ih ⊢
          rw [if_neg hidx, hget]
          simp only [Option.map_some']
          rw [ih]

theorem buildResults_domain (docs : List Doc) :
    ∀ (entries : List (Nat × (Rat × Int))) (l : List (Rat × SearchResult)),
      buildResults docs entries = Except.ok l →
      ∀ e ∈ entries, e.2.2 ≠ -1 → (docs[e.2.2.toNat]?).isSome
  | [], _, _, e, he => by simp at he
  | (i, (dist, idx)) :: rest, l, h, e, he => by
    simp only [buildResults] at h
    intro hne
    by_cases hidx : idx = -1
    case pos =>
      rw [if_pos hidx] at h
      rcases List.mem_cons.mp he with he | he
      · subst he
        exact absurd hidx hne
      · exact buildResults_domain docs rest l h e he hne
    case neg =>
      rw [if_neg hidx] at h
      cases hget : docs[idx.toNat]? with
      | none => rw [hget] at h; exact absurd h (by simp)
      | some doc =>
        rw [hget] at h
        cases hrest : buildResults docs rest with
        | error er => rw [hrest] at h; exact absurd h (by simp)
        | ok rs =>
          rcases List.mem_cons.mp he with he | he
          · subst he
            simp only
            rw [hget]
            rfl
          · exact buildResults_domain docs rest rs hrest e he hne

theorem buildResults_ok (docs : List Doc) :
    ∀ (entries : List (Nat × (Rat × Int))),
      (∀ e ∈ entries, e.2.2 ≠ -1 → (docs[e.2.2.toNat]?).isSome) →
      buildResults docs entries = Except.ok (resultsOf docs entries)
  | [], _ => by simp [buildResults, resultsOf]
  | (i, (dist, idx)) :: rest, hdom => by
    have hrest := buildResults_ok docs rest
      (fun e he hne => hdom e (List.mem_cons_of_mem _ he) hne)
    simp only [buildResults]
    by_cases hidx : idx = -1
    case pos =>
      rw [if_pos hidx, hrest]
      simp only [resultsOf, List.filterMap_cons]
      rw [if_pos hidx]
    case neg =>
      rw [if_neg hidx]
      have hsome := hdom (i, (dist, idx)) (List.mem_cons_self _ _) hidx
      rcases Option.isSome_iff_exists.mp hsome with ⟨doc, hget⟩
      simp only at hget
      rw [hget, hrest]
      simp only [resultsOf, List.filterMap_cons]
      rw [if_neg hidx]
      rw [hget]
      simp only [Option.map_some']

theorem resultsOf_append (docs : List Doc) (e1 e2 : List (Nat × (Rat × Int))) :
    resultsOf docs (e1 ++ e2) = resultsOf docs e1 ++ resultsOf docs e2 :=
  List.filterMap_append e1 e2 _

theorem resultsOf_pads (docs : List Doc) :
    ∀ (m i : Nat),
      resultsOf docs (enumerateFrom i (List.replicate m (padDistance, -1))) = []
  | 0, _ => rfl
  | m + 1, i => resultsOf_pads docs m (i + 1)

/-- Peeling one kept entry off the front of the assembly. -/
theorem resultsOf_kept_cons (docs : List Doc) (d : Rat) (idx : Int)
    (rest : List (Rat × Int)) (i : Nat) (doc : Doc) (hne : idx ≠ -1)
    (hget : docs[idx.toNat]? = some doc) :
    resultsOf docs (enumerateFrom i ((d, idx) :: rest)) =
      (d, { doc := doc, similarity_score := 1 / (1 + d), rank := i + 1 }) ::
        resultsOf docs (enumerateFrom (i + 1) rest) := by
  simp only [enumerateFrom, resultsOf, List.filterMap_cons]
  rw [if_neg hne, hget]
  simp only [Option.map_some']

theorem resultsOf_kept_length (docs : List Doc) :
    ∀ (l : List (Rat × Int)) (i : Nat),
      (∀ e ∈ l, e.2 ≠ -1 ∧ (docs[e.2.toNat]?).isSome) →
      (resultsOf docs (enumerateFrom i l)).length = l.length
  | [], _, _ => rfl
  | (d, idx) :: rest, i, hk => by
    rcases hk (d, idx) (List.mem_cons_self _ _) with ⟨hne, hsome⟩
    simp only at hne hsome
    rcases Option.isSome_iff_exists.mp hsome with ⟨doc, hget⟩
    rw [resultsOf_kept_cons docs d idx rest i doc hne hget]
    simp only [List.length_cons]
    rw [resultsOf_kept_length docs rest (i + 1)
      (fun e he => hk e (List.mem_cons_of_mem _ he))]

theorem resultsOf_kept_ranks (docs : List Doc) :
    ∀ (l : List (Rat × Int)) (i : Nat),
      (∀ e ∈ l, e.2 ≠ -1 ∧ (docs[e.2.toNat]?).isSome) →
      (resultsOf docs (enumerateFrom i l)).map (fun p => p.2.rank) =
        List.range' (i + 1) l.length
  | [], _, _ => rfl
  | (d, idx) :: rest, i, hk => by
    rcases hk (d, idx) (List.mem_cons_self _ _) with ⟨hne, hsome⟩
    simp only at hne hsome
    rcases Option.isSome_iff_exists.mp hsome with ⟨doc, hget⟩
    rw [resultsOf_kept_cons docs d idx rest i doc hne hget]
    simp only [List.map_cons, List.length_cons, List.range'_succ]
    rw [resultsOf_kept_ranks docs rest (i + 1)
      (fun e he => hk e (List.mem_cons_of_mem _ he))]

theorem resultsOf_kept_dists (docs : List Doc) :
    ∀ (l : List (Rat × Int)) (i : Nat),
      (∀ e ∈ l, e.2 ≠ -1 ∧ (docs[e.2.toNat]?).isSome) →
      (resultsOf docs (enumerateFrom i l)).map Prod.fst = l.map Prod.fst
  | [], _, _ => rfl
  | (d, idx) :: rest, i, hk => by
    rcases hk (d, idx) (List.mem_cons_self _ _) with ⟨hne, hsome⟩
    simp only at hne hsome
    rcases Option.isSome_iff_exists.mp hsome with ⟨doc, hget⟩
    rw [resultsOf_kept_cons docs d idx rest i doc hne hget]
    simp only [List.map_cons]
    rw [resultsOf_kept_dists docs rest (i + 1)
      (fun e he => hk e (List.mem_cons_of_mem _ he))]

theorem resultsOf_mem (docs : List Doc) (entries : List (Nat × (Rat × Int)))
    (p : Rat × SearchResult) (hp : p ∈ resultsOf docs entries) :
    p.2.similarity_score = 1 / (1 + p.1) ∧ p.2.doc ∈ docs ∧
      ∃ e ∈ entries, e.2.1 = p.1 := by
  rcases List.mem_filterMap.mp hp with ⟨e, he, heq⟩
  by_cases hidx : e.2.2 = -1
  case pos =>
    rw [if_pos hidx] at heq
    exact absurd heq (by simp)
  case neg =>
    rw [if_neg hidx] at heq
    cases hget : docs[e.2.2.toNat]? with
    | none =>
      rw [hget] at heq
      exact absurd heq (by simp)
    | some doc =>
      rw [hget] at heq
      simp only [Option.map_some', Option.some.injEq] at heq
      have hdoc : doc ∈ docs := by
        have := List.getElem?_eq_some.mp hget
        rcases this with ⟨hlt, hval⟩
        rw [← hval]
        exact List.getElem_mem _
      rw [← heq]
      exact ⟨rfl, hdoc, ⟨e, he, rfl⟩⟩

/-- All real (non pad) entries of a faiss answer resolve to stored chunk
records when documents and vectors are aligned. -/
theorem topK_kept (emb : List (List Rat)) (docs : List Doc) (q : List Rat)
    (k : Nat) (halign : docs.length = emb.length) :
    ∀ e ∈ topK emb q k, e.2 ≠ -1 ∧ (docs[e.2.toNat]?).isSome := by
  intro e he
  rcases topK_mem emb q k e he with ⟨hd, h0, hlt⟩
  have hne : e.2 ≠ -1 := by omega
  have hidx : e.2.toNat < docs.length := by omega
  exact ⟨hne, by simp [List.getElem?_eq_getElem hidx]⟩

/-- If the result assembly of search succeeded, all real entries of the
faiss answer resolve to stored chunk records. -/
theorem topK_kept_of_ok (docs : List Doc) (vs : List (List Rat)) (q : List Rat)
    (k : Nat) (l : List (Rat × SearchResult))
    (h : buildResults docs (enumerateFrom 0 (faissTopK vs q k)) = Except.ok l) :
    ∀ e ∈ topK vs q k, e.2 ≠ -1 ∧ (docs[e.2.toNat]?).isSome := by
  intro e he
  rcases topK_mem vs q k e he with ⟨hd, h0, hlt⟩
  have hne : e.2 ≠ -1 := by omega
  rcases enumerateFrom_mem_of_mem (topK vs q k) 0 e he with ⟨j, hj⟩
  have hj2 : (j, e) ∈ enumerateFrom 0 (faissTopK vs q k) := by
    rw [faissTopK_eq, enumerateFrom_append]
    exact List.mem_append_left _ hj
  exact ⟨hne, buildResults_domain docs _ l h (j, e) hj2 hne⟩

/-- The pad entries contribute nothing to the assembled results. -/
theorem resultsOf_faiss (docs : List Doc) (vs : List (List Rat)) (q : List Rat)
    (k : Nat) :
    resultsOf docs (enumerateFrom 0 (faissTopK vs q k)) =
      resultsOf docs (enumerateFrom 0 (topK vs q k)) := by
  rw [faissTopK_eq, enumerateFrom_append, resultsOf_append, resultsOf_pads,
    List.append_nil]

/-- searchPairs on a freshly created index succeeds and returns the
assembled results of the faiss answer. -/
theorem searchPairs_create (s0 : VectorStore) (emb : List (List Rat))
    (docs : List Doc) (q : List Rat) (k : Nat)
    (halign : docs.length = emb.length) :
    (s0.create_index emb docs).searchPairs q k =
      Except.ok (resultsOf docs (enumerateFrom 0 (faissTopK emb q k))) := by
  have hdom : ∀ e ∈ enumerateFrom 0 (faissTopK emb q k),
      e.2.2 ≠ -1 → ((docs[e.2.2.toNat]?).isSome : Prop) := by
    intro e he hne
    have hmem := enumerateFrom_mem _ 0 e he
    rw [faissTopK_eq] at hmem
    rcases List.mem_append.mp hmem with hm | hm
    · exact (topK_kept emb docs q k halign e.2 hm).2
    · have := List.eq_of_mem_replicate hm
      rw [this] at hne
      exact absurd rfl hne
  simp only [VectorStore.searchPairs, VectorStore.create_index]
  exact buildResults_ok docs _ hdom

/-- Similarity scores computed by 1 / (1 + distance) are antitone along a
result list whose distances are non-negative and non-decreasing. -/
theorem chain'_score :
    ∀ (l : List (Rat × SearchResult)),
      List.Chain' (fun a b => a.1 ≤ b.1) l →
      (∀ p ∈ l, 0 ≤ p.1) →
      (∀ p ∈ l, p.2.similarity_score = 1 / (1 + p.1)) →
      List.Chain' (fun a b : Rat × SearchResult =>
        b.2.similarity_score ≤ a.2.similarity_score) l
  | [], _, _, _ => List.chain'_nil
  | [a], _, _, _ => by simp
  | a :: b :: t, hc, hpos, hs => by
    rw [List.chain'_cons] at hc ⊢
    refine ⟨?head, chain'_score (b :: t) hc.2
      (fun p hp => hpos p (List.mem_cons_of_mem _ hp))
      (fun p hp => hs p (List.mem_cons_of_mem _ hp))⟩
    rw [hs a (List.mem_cons_self _ _),
      hs b (List.mem_cons_of_mem _ (List.mem_cons_self _ _))]
    have ha := hpos a (List.mem_cons_self _ _)
    have hab := hc.1
    exact one_div_le_one_div_of_le (by linarith) (by linarith)

/- ------------------------------------------------------------------ -/
/- Sample values used by witnesses                                    -/
/- ------------------------------------------------------------------ -/

def sampleDoc0 : Doc :=
  { id := ("1_0"), title := ("T0"), chunk := ("c0"), chunk_index := 0,
    total_chunks := 1, metadata := [(("category"), ("AI"))] }

def sampleDoc1 : Doc :=
  { id := ("2_0"), title := ("T1"), chunk := ("c1"), chunk_index := 0,
    total_chunks := 1, metadata := [] }

def sampleStore : VectorStore :=
  (VectorStore.init 1).create_index [[0], [3]] [sampleDoc0, sampleDoc1]

def samplePairs : List (Rat × SearchResult) :=
  [(0, { doc := sampleDoc0, similarity_score := 1, rank := 1 }),
   (9, { doc := sampleDoc1, similarity_score := 1 / 10, rank := 2 })]

def sampleTop1 : List SearchResult :=
  [{ doc := sampleDoc0, similarity_score := 1, rank := 1 }]

def sampleSystem : RetrievalSystem :=
  { model_name := ("all-MiniLM-L6-v2"), vector_store := VectorStore.init 384 }

def sampleRetrieval : RetrievalSystem :=
  { model_name := ("all-MiniLM-L6-v2"), vector_store := sampleStore }

def sampleResults : List SearchResult :=
  [{ doc := sampleDoc0, similarity_score := 1, rank := 1 },
   { doc := sampleDoc1, similarity_score := 1 / 10, rank := 2 }]

def wsDocument : Document :=
  { id := some ("w"), title := ("W"), content := ("   "), metadata := [] }

/- ------------------------------------------------------------------ -/
/- Claim theorems                                                     -/
/- ------------------------------------------------------------------ -/

/-- C1: the claim says that in every window whose end stops short of the
text a break point past the window midpoint shortens the chunk, for every
window and not only the one at start 0.  The code compares the
window-relative break point to start + chunk_size // 2, so for the window
at start 10 of this text the period at window offset 8 is past the
midpoint 5, yet the chunk keeps its full end 20 instead of being shortened
to end 19 at the period: the produced second chunk still carries the
character after the period. -/
theorem chunk_text_midwindow_break_ignored :
    chunk_text ("aaaaaaaaaaaaaaaaaa.aaa".toList) 10 0 =
      [("aaaaaaaaaa".toList), ("aaaaaaaa.a".toList), ("aa".toList)] ∧
    breakPoint ("aaaaaaaaaaaaaaaaaa.aaa".toList) 10 10 = 8 ∧
    ((10 / 2 : Nat) : Int) < 8 ∧
    chunkEnd ("aaaaaaaaaaaaaaaaaa.aaa".toList) 10 10 = 20 := by
  refine ⟨by decide, by decide, by decide, by decide⟩

/-- C2: search on a built index returns exactly min(k, indexSize) results,
hence at most k, and every result comes from a stored chunk record (the -1
padding the faiss answer carries when the index holds fewer than k vectors
is filtered out, never surfaced). -/
theorem search_k_bound (s0 : VectorStore) (emb : List (List Rat))
    (docs : List Doc) (q : List Rat) (k : Nat)
    (halign : docs.length = emb.length) :
    ∃ rs, (s0.create_index emb docs).search q k = Except.ok rs ∧
      rs.length = min k emb.length ∧ rs.length ≤ k ∧
      ∀ r ∈ rs, r.doc ∈ docs := by
  have hkept := topK_kept emb docs q k halign
  have hsp := searchPairs_create s0 emb docs q k halign
  refine ⟨(resultsOf docs (enumerateFrom 0 (faissTopK emb q k))).map Prod.snd,
    ?hok, ?hlen, ?hle, ?hmem⟩
  case hok =>
    unfold VectorStore.search
    rw [hsp]
    rfl
  case hlen =>
    rw [List.length_map, resultsOf_faiss, resultsOf_kept_length docs _ 0 hkept,
      topK_length]
  case hle =>
    rw [List.length_map, resultsOf_faiss, resultsOf_kept_length docs _ 0 hkept,
      topK_length]
    exact min_le_left _ _
  case hmem =>
    intro r hr
    rcases List.mem_map.mp hr with ⟨p, hp, hpr⟩
    rw [← hpr]
    exact (resultsOf_mem docs _ p hp).2.1

theorem search_k_bound_witness :
    ∃ rs, ((VectorStore.init 1).create_index [[0], [3]]
        [sampleDoc0, sampleDoc1]).search [0] 5 = Except.ok rs ∧
      rs.length = min 5 ([[0], [3]] : List (List Rat)).length ∧
      rs.length ≤ 5 ∧
      ∀ r ∈ rs, r.doc ∈ [sampleDoc0, sampleDoc1] :=
  search_k_bound (VectorStore.init 1) [[0], [3]] [sampleDoc0, sampleDoc1]
    [0] 5 (by rfl)

/-- C3: search on a freshly constructed, un-built VectorStore raises the
not-trained error (a ValueError carrying this message in the source, the
NotTrainedError of the specification) for every embedding_dim, query and
k, rather than returning a silent empty result. -/
theorem search_untrained_raises (d : Nat) (q : List Rat) (k : Nat) :
    (VectorStore.init d).search q k =
      Except.error ("Index not trained. Create index first.") := rfl

/-- C4: in any successful search answer each result's similarity score is
1 / (1 + distance) of the distance it was derived from, ranks are assigned
1, 2, ... in result order, distances are non-decreasing along the list and
similarity scores are non-increasing along the list. -/
theorem search_rank_monotone (s : VectorStore) (q : List Rat) (k : Nat)
    (prs : List (Rat × SearchResult))
    (h : s.searchPairs q k = Except.ok prs) :
    s.search q k = Except.ok (prs.map Prod.snd) ∧
    (∀ p ∈ prs, p.2.similarity_score = 1 / (1 + p.1)) ∧
    prs.map (fun p => p.2.rank) = List.range' 1 prs.length ∧
    List.Chain' (fun a b : Rat × SearchResult => a.1 ≤ b.1) prs ∧
    List.Chain' (fun a b : Rat × SearchResult =>
      b.2.similarity_score ≤ a.2.similarity_score) prs := by
  have hok : s.search q k = Except.ok (prs.map Prod.snd) := by
    unfold VectorStore.search
    rw [h]
    rfl
  unfold VectorStore.searchPairs at h
  by_cases ht : s.is_trained = false
  case pos =>
    rw [if_pos ht] at h
    exact absurd h (by simp)
  case neg =>
    rw [if_neg ht] at h
    cases hix : s.index with
    | none =>
      rw [hix] at h
      exact absurd h (by simp)
    | some vs =>
      rw [hix] at h
      have hkept := topK_kept_of_ok s.documents vs q k prs h
      have hprs : prs = resultsOf s.documents (enumerateFrom 0 (topK vs q k)) := by
        rw [buildResults_eq_ok s.documents _ prs h, resultsOf_faiss]
      have hscore : ∀ p ∈ prs, p.2.similarity_score = 1 / (1 + p.1) := by
        intro p hp
        exact (resultsOf_mem s.documents _ p (hprs ▸ hp)).1
      have hpos : ∀ p ∈ prs, 0 ≤ p.1 := by
        intro p hp
        rcases (resultsOf_mem s.documents _ p (hprs ▸ hp)).2.2 with ⟨e, he, hep⟩
        have hm := enumerateFrom_mem _ 0 e he
        rcases topK_mem vs q k e.2 hm with ⟨hd, _, _⟩
        rw [← hep]
        exact hd
      have hdist : List.Chain' (fun a b : Rat × SearchResult => a.1 ≤ b.1) prs := by
        have hpair : List.Pairwise (fun a b : Rat × Int => a.1 ≤ b.1)
            (topK vs q k) := topK_sorted vs q k
        have hmap : List.Pairwise (fun a b : Rat => a ≤ b)
            ((topK vs q k).map Prod.fst) := List.pairwise_map.mpr hpair
        have hchain : List.Chain' (fun a b : Rat => a ≤ b)
            ((topK vs q k).map Prod.fst) := hmap.chain'
        rw [← resultsOf_kept_dists s.documents _ 0 hkept, ← hprs] at hchain
        exact (List.chain'_map Prod.fst).mp hchain
      refine ⟨hok, hscore, ?hranks, hdist, ?hchain2⟩
      case hranks =>
        rw [hprs, resultsOf_kept_ranks s.documents _ 0 hkept,
          resultsOf_kept_length s.documents _ 0 hkept]
      case hchain2 =>
        exact chain'_score prs hdist hpos hscore

theorem search_rank_monotone_witness :
    sampleStore.search [0] 2 = Except.ok (samplePairs.map Prod.snd) ∧
    (∀ p ∈ samplePairs, p.2.similarity_score = 1 / (1 + p.1)) ∧
    samplePairs.map (fun p => p.2.rank) = List.range' 1 samplePairs.length ∧
    List.Chain' (fun a b : Rat × SearchResult => a.1 ≤ b.1) samplePairs ∧
    List.Chain' (fun a b : Rat × SearchResult =>
      b.2.similarity_score ≤ a.2.similarity_score) samplePairs :=
  search_rank_monotone sampleStore [0] 2 samplePairs (by
    norm_num [VectorStore.searchPairs, sampleStore, VectorStore.create_index,
      VectorStore.init, faissTopK, scoredAux, l2sq, pairLe, List.insertionSort,
      List.orderedInsert, buildResults, enumerateFrom, samplePairs, sampleDoc0,
      sampleDoc1])

/-- C5: building an index from a corpus that yields no processed chunks --
zero documents, or documents whose contents chunk to nothing -- raises the
explicit no-documents error from create_embeddings instead of producing a
zero-size index whose ready flag is set. -/
theorem build_index_empty_corpus (embed : String → List Rat)
    (sys : RetrievalSystem) (docs : List Document)
    (h : process_documents docs = []) :
    sys.build_index embed docs =
      Except.error ("No documents to embed. Process documents first.") := by
  unfold RetrievalSystem.build_index
  rw [h]
  rfl

theorem build_index_empty_corpus_witness :
    sampleSystem.build_index (fun _ => [0]) [] =
      Except.error ("No documents to embed. Process documents first.") ∧
    sampleSystem.build_index (fun _ => [0]) [wsDocument] =
      Except.error ("No documents to embed. Process documents first.") :=
  ⟨build_index_empty_corpus (fun _ => [0]) sampleSystem [] (by rfl),
   build_index_empty_corpus (fun _ => [0]) sampleSystem [wsDocument] (by rfl)⟩

/-- C6: the chunking loop terminates for every text, chunk size and
overlap, including overlap at least chunk_size: its result is already the
limit after text.length - start iterations because the start position
advances by at least one character per step, and under the precondition
overlap < chunk_size an unshortened window advances the start by exactly
chunk_size - overlap; in general the next start is the maximum of
start + 1 and the (possibly shortened) chunk end minus the overlap. -/
theorem chunk_text_terminates (text : List Char)
    (chunk_size overlap start fuel : Nat) (_hcs : 1 ≤ chunk_size)
    (hfuel : text.length - start ≤ fuel) :
    chunkLoop fuel text chunk_size overlap start =
      chunkLoop (text.length - start) text chunk_size overlap start ∧
    (start < text.length → start + 1 ≤ nextStart text chunk_size overlap start) ∧
    nextStart text chunk_size overlap start =
      max (start + 1) (chunkEnd text chunk_size start - overlap) ∧
    (overlap < chunk_size →
      chunkEnd text chunk_size start = start + chunk_size →
      nextStart text chunk_size overlap start = start + (chunk_size - overlap)) := by
  refine ⟨chunkLoop_fuel_indep text chunk_size overlap fuel
      (text.length - start) start hfuel (le_refl _),
    fun _ => nextStart_gt text chunk_size overlap start, rfl, ?hexact⟩
  intro hov hend
  unfold nextStart
  rw [hend]
  have hsub : start + chunk_size - overlap = start + (chunk_size - overlap) := by
    omega
  rw [hsub]
  exact max_eq_right (by omega)

theorem chunk_text_terminates_witness :
    chunkLoop 9 ("ab.cd".toList) 2 5 0 =
      chunkLoop (("ab.cd".toList).length - 0) ("ab.cd".toList) 2 5 0 ∧
    (0 < ("ab.cd".toList).length → 0 + 1 ≤ nextStart ("ab.cd".toList) 2 5 0) ∧
    nextStart ("ab.cd".toList) 2 5 0 =
      max (0 + 1) (chunkEnd ("ab.cd".toList) 2 0 - 5) ∧
    (5 < 2 → chunkEnd ("ab.cd".toList) 2 0 = 0 + 2 →
      nextStart ("ab.cd".toList) 2 5 0 = 0 + (2 - 5)) :=
  chunk_text_terminates ("ab.cd".toList) 2 5 0 9 (by decide) (by decide)

/-- C7: for a valid parameter pair every chunk that chunk_text returns is
non-empty, has length at most chunk_size (the final chunk included), and
is the whitespace-stripped window slice it was cut from. -/
theorem chunk_text_chunks_bounded (text : List Char) (chunk_size overlap : Nat)
    (_hov : overlap < chunk_size) :
    ∀ c ∈ chunk_text text chunk_size overlap,
      c ≠ [] ∧ c.length ≤ chunk_size ∧
        ∃ s0, c = stripChars (chunkSlice text chunk_size s0) := by
  intro c hc
  rcases List.mem_filter.mp hc with ⟨hmem, hne⟩
  have hne2 : c ≠ [] := by simpa using hne
  rcases chunkLoop_mem text chunk_size overlap _ 0 c hmem with ⟨s0, hs0⟩
  refine ⟨hne2, ?hlen, ⟨s0, hs0⟩⟩
  rw [hs0]
  exact le_trans (stripChars_length_le _) (chunkSlice_length_le text chunk_size s0)

theorem chunk_text_chunks_bounded_witness :
    (("ab.".toList) ∈ chunk_text ("ab.cd".toList) 3 1) ∧
    (("ab.".toList) ≠ [] ∧ ("ab.".toList).length ≤ 3 ∧
      ∃ s0, ("ab.".toList) = stripChars (chunkSlice ("ab.cd".toList) 3 s0)) :=
  ⟨by decide,
   chunk_text_chunks_bounded ("ab.cd".toList) 3 1 (by decide)
     ("ab.".toList) (by decide)⟩

/-- C8: saving a trained store and loading the artifacts into a freshly
constructed VectorStore reproduces its documents, embeddings, embedding
dimension and trained flag, and the loaded store answers every query with
exactly the results of the original store without create_index being
called again. -/
theorem save_load_roundtrip (s : VectorStore) (d : Nat)
    (vs : List (List Rat)) (ht : s.is_trained = true)
    (hix : s.index = some vs) :
    ∃ saved, s.save_index = Except.ok saved ∧
      ((VectorStore.init d).load_index saved).documents = s.documents ∧
      ((VectorStore.init d).load_index saved).embeddings = s.embeddings ∧
      ((VectorStore.init d).load_index saved).embedding_dim = s.embedding_dim ∧
      ((VectorStore.init d).load_index saved).is_trained = true ∧
      ∀ q k, ((VectorStore.init d).load_index saved).search q k =
        s.search q k := by
  refine ⟨SavedIndex.mk vs s.documents s.embeddings s.embedding_dim
    s.is_trained, ?hsave, rfl, rfl, rfl, ?htr, ?hsearch⟩
  case hsave =>
    unfold VectorStore.save_index
    rw [ht, hix]
    rfl
  case htr =>
    simp [VectorStore.load_index, ht]
  case hsearch =>
    intro q k
    simp only [VectorStore.search, VectorStore.searchPairs,
      VectorStore.load_index, VectorStore.init, ht, hix]

theorem save_load_roundtrip_witness :
    ∃ saved, sampleStore.save_index = Except.ok saved ∧
      ((VectorStore.init 7).load_index saved).documents = sampleStore.documents ∧
      ((VectorStore.init 7).load_index saved).embeddings = sampleStore.embeddings ∧
      ((VectorStore.init 7).load_index saved).embedding_dim = sampleStore.embedding_dim ∧
      ((VectorStore.init 7).load_index saved).is_trained = true ∧
      ∀ q k, ((VectorStore.init 7).load_index saved).search q k =
        sampleStore.search q k :=
  save_load_roundtrip sampleStore 7 [[0], [3]] (by rfl) (by rfl)

/-- C9: on a ready system the generation context is the retrieved results
rendered as blocks joined by a blank line, each block carrying the
result's title, its chunk text and the metadata category with the literal
Unknown fallback when the category key is absent, and each block ending
with the trailing delimiter. -/
theorem context_format (embed : String → List Rat) (sys : RetrievalSystem)
    (query : String) (k : Nat) (results : List SearchResult)
    (h : sys.retrieve embed query k = Except.ok results) :
    sys.get_context_for_generation embed query k =
      Except.ok (String.intercalate ("\n\n") (results.map formatResult)) ∧
    (∀ r ∈ results, formatResult r =
      ("Title: ") ++ r.doc.title ++ ("\n") ++ ("Content: ") ++ r.doc.chunk ++
        ("\n") ++ ("Category: ") ++
        ((dictGet r.doc.metadata ("category")).getD ("Unknown")) ++ ("\n") ++
        ("---")) ∧
    (∀ r ∈ results, ∃ pre, formatResult r = pre ++ ("---")) ∧
    (∀ r ∈ results, dictGet r.doc.metadata ("category") = none →
      ∃ pre, formatResult r = pre ++ ("Unknown") ++ ("\n") ++ ("---")) := by
  refine ⟨?hjoin, fun r _ => rfl, fun r _ => ⟨_, rfl⟩, ?hunk⟩
  case hjoin =>
    unfold RetrievalSystem.get_context_for_generation
    rw [h]
  case hunk =>
    intro r _ hcat
    refine ⟨("Title: ") ++ r.doc.title ++ ("\n") ++ ("Content: ") ++
      r.doc.chunk ++ ("\n") ++ ("Category: "), ?he⟩
    unfold formatResult
    rw [hcat]
    rfl

theorem context_format_witness :
    sampleRetrieval.get_context_for_generation (fun _ => [0]) ("q") 2 =
      Except.ok (String.intercalate ("\n\n") (sampleResults.map formatResult)) ∧
    (∀ r ∈ sampleResults, formatResult r =
      ("Title: ") ++ r.doc.title ++ ("\n") ++ ("Content: ") ++ r.doc.chunk ++
        ("\n") ++ ("Category: ") ++
        ((dictGet r.doc.metadata ("category")).getD ("Unknown")) ++ ("\n") ++
        ("---")) ∧
    (∀ r ∈ sampleResults, ∃ pre, formatResult r = pre ++ ("---")) ∧
    (∀ r ∈ sampleResults, dictGet r.doc.metadata ("category") = none →
      ∃ pre, formatResult r = pre ++ ("Unknown") ++ ("\n") ++ ("---")) :=
  context_format (fun _ => [0]) sampleRetrieval ("q") 2 sampleResults (by
    norm_num [RetrievalSystem.retrieve, sampleRetrieval, VectorStore.search,
      VectorStore.searchPairs, sampleStore, VectorStore.create_index,
      VectorStore.init, faissTopK, scoredAux, l2sq, pairLe,
      List.insertionSort, List.orderedInsert, buildResults, enumerateFrom,
      sampleResults, sampleDoc0, sampleDoc1, Except.map])

/-- C10: search never writes a field of the store -- the state-passing
form hands back exactly the store it was given, so documents, embeddings,
embedding dimension, index contents and trained flag are unchanged -- and
every returned result carries a copy of a stored chunk record, the
similarity_score and rank keys living on the copy, not on the store. -/
theorem search_readonly (s : VectorStore) (q : List Rat) (k : Nat) :
    (s.searchS q k).1 = s ∧
    (s.searchS q k).2 = s.search q k ∧
    ∀ rs, s.search q k = Except.ok rs → ∀ r ∈ rs, r.doc ∈ s.documents := by
  refine ⟨rfl, rfl, ?hmem⟩
  intro rs hok r hr
  unfold VectorStore.search at hok
  cases hsp : s.searchPairs q k with
  | error e =>
    rw [hsp] at hok
    exact absurd hok (by simp [Except.map])
  | ok prs =>
    rw [hsp] at hok
    simp only [Except.map] at hok
    have hrs : rs = prs.map Prod.snd := (Except.ok.inj hok).symm
    subst hrs
    rcases List.mem_map.mp hr with ⟨p, hp, hpr⟩
    unfold VectorStore.searchPairs at hsp
    by_cases ht : s.is_trained = false
    case pos =>
      rw [if_pos ht] at hsp
      exact absurd hsp (by simp)
    case neg =>
      rw [if_neg ht] at hsp
      cases hix : s.index with
      | none =>
        rw [hix] at hsp
        exact absurd hsp (by simp)
      | some vs =>
        rw [hix] at hsp
        have hprs := buildResults_eq_ok s.documents _ prs hsp
        rw [← hpr]
        exact (resultsOf_mem s.documents _ p (hprs ▸ hp)).2.1

theorem search_readonly_witness :
    (sampleStore.searchS [0] 1).1 = sampleStore ∧
    ∀ r ∈ sampleTop1, r.doc ∈ sampleStore.documents :=
  ⟨(search_readonly sampleStore [0] 1).1,
   (search_readonly sampleStore [0] 1).2.2 sampleTop1 (by
     norm_num [VectorStore.search, VectorStore.searchPairs, sampleStore,
       VectorStore.create_index, VectorStore.init, faissTopK, scoredAux,
       l2sq, pairLe, List.insertionSort, List.orderedInsert, buildResults,
       enumerateFrom, sampleTop1, sampleDoc0, sampleDoc1, Except.map])⟩
